import Mathlib

/-!
Verification of the botan `configure.py` build-configuration engine:
the record lexer, the stride-3 list-to-map coercion, the machine-optimization
table parser and flag lookup, processor canonicalization and autodetection,
module selection, and the derived build-configuration lists.

Python dictionaries that are only ever consulted by key lookup are modelled as
association lists (`alookup` finds the first, i.e. most shadowing, binding;
`dinsert` overwrites like a Python dict assignment).  Python's `str.replace`
is modelled by `pyReplace`, and `re.match` by the matcher `reMatch`, which
supports literal characters, the wildcard dot and postfix star, anchored at
the start of the string only, mirroring the prefix-matching semantics of
`re.match` on the pattern language actually used by the metadata files.
-/

namespace Botan

/-- First-binding association-list lookup, the model of Python dict lookup. -/
def alookup (k : String) : List (String × α) → Option α
  | [] => none
  | (k', v) :: rest => if k' = k then some v else alookup k rest

/-- Python dict assignment `d[k] = v`: overwrite the binding if present,
otherwise append a new one. -/
def dinsert (k : String) (v : α) : List (String × α) → List (String × α)
  | [] => [(k, v)]
  | (k', v') :: rest =>
    if k' = k then (k, v) :: rest else (k', v') :: dinsert k v rest

/-- Auxiliary worker for `pyReplace`, fuelled so that it reduces in the
kernel.  Replaces non-overlapping occurrences of `pat` (nonempty) in `s`
left to right. -/
def pyReplaceAux : Nat → List Char → List Char → List Char → List Char
  | 0, s, _, _ => s
  | _ + 1, [], _, _ => []
  | n + 1, c :: s', pat, new =>
    if pat.isPrefixOf (c :: s') then
      new ++ pyReplaceAux n ((c :: s').drop pat.length) pat new
    else
      c :: pyReplaceAux n s' pat new

/-- Python `s.replace(pat, new)`: all non-overlapping occurrences, left to
right; the empty pattern matches at every position including both ends. -/
def pyReplace (s pat new : String) : String :=
  if pat.data.isEmpty then
    ⟨new.data ++ (s.data.map (fun c => c :: new.data)).flatten⟩
  else
    ⟨pyReplaceAux s.data.length s.data pat.data new.data⟩

/-- One pattern atom against one character: `.` matches anything. -/
def charMatch (p c : Char) : Bool := p = '.' || p = c

/-- Fuelled regex acceptor: does the pattern match some prefix of the input?
Supports literals, `.` and postfix `*`.  Fuel only needs to dominate
`pat.length + s.length`. -/
def reAcceptF : Nat → List Char → List Char → Bool
  | 0, _, _ => false
  | _ + 1, [], _ => true
  | n + 1, p :: '*' :: ps, s =>
    reAcceptF n ps s ||
      (match s with
       | [] => false
       | c :: s' => charMatch p c && reAcceptF n (p :: '*' :: ps) s')
  | n + 1, p :: ps, s =>
    match s with
    | [] => false
    | c :: s' => charMatch p c && reAcceptF n ps s'

/-- Model of `re.match(pat, s) != None`: anchored at the start, the pattern
may match any prefix of `s`. -/
def reMatch (pat s : String) : Bool :=
  reAcceptF (pat.data.length + s.data.length + 1) pat.data s.data

/-- Lexicographic strict comparison of character lists, as a boolean. -/
def lexLtCh : List Char → List Char → Bool
  | [], [] => false
  | [], _ :: _ => true
  | _ :: _, [] => false
  | c :: cs, d :: ds =>
    if c < d then true else if d < c then false else lexLtCh cs ds

/-- Boolean string comparison: Python's `<` on strings (code-point
lexicographic). -/
def strLt (a b : String) : Bool := lexLtCh a.data b.data

/-- Boolean string comparison: Python's `<=` on strings. -/
def strLe (a b : String) : Bool := !strLt b a

/-- Model of Python `str.lower()` (character-wise lowercasing). -/
def toLowerB (s : String) : String := ⟨s.data.map Char.toLower⟩

/-- Model of Python `s.endswith(pat)`. -/
def endsWithB (s pat : String) : Bool := pat.data.isSuffixOf s.data

/-- Model of Python `s.startswith(pat)` (what `re.match('^all!...')`
effectively tests). -/
def startsWithB (s pat : String) : Bool := pat.data.isPrefixOf s.data

/-- Worker for `splitComma`, accumulating the current field reversed. -/
def splitCommaAux : List Char → List Char → List String
  | [], cur => [⟨cur.reverse⟩]
  | c :: rest, cur =>
    if c = ',' then ⟨cur.reverse⟩ :: splitCommaAux rest []
    else splitCommaAux rest (c :: cur)

/-- Model of Python `s.split(',')`: the empty string yields `[""]`. -/
def splitComma (s : String) : List String := splitCommaAux s.data []

/-- `force_to_dict`'s stride-3 key extraction: Python `l[::3]`. -/
def everyThird : List String → List String
  | [] => []
  | [x] => [x]
  | [x, _] => [x]
  | x :: _ :: _ :: xs => x :: everyThird xs

/-- `force_to_dict(l)` from the source: `dict(zip(l[::3], l[2::3]))`.
Keys at stride-3 offset 0 are zipped with values at stride-3 offset 2;
`zip` silently truncates to the shorter side. -/
def force_to_dict (l : List String) : List (String × String) :=
  (everyThird l).zip (everyThird (l.drop 2))

/-- Insert into a weakly sorted list, keeping duplicates: one step of the
model of Python `sorted` on a list of strings. -/
def insertLe (x : String) : List String → List String
  | [] => [x]
  | y :: ys => if strLe x y then x :: y :: ys else y :: insertLe x ys

/-- Model of Python `sorted(l)` for strings (equal strings are identical, so
insertion sort computes exactly what the stable sort does). -/
def sortStr (l : List String) : List String := l.foldr insertLe []

/-- Insert into a strictly sorted duplicate-free list: one step of the model
of Python `sorted(set(...))`. -/
def insertStr (x : String) : List String → List String
  | [] => [x]
  | y :: ys =>
    if strLt x y then x :: y :: ys
    else if x = y then y :: ys
    else y :: insertStr x ys

/-- Model of Python `sorted(set(l))` for strings. -/
def setSorted (l : List String) : List String :=
  l.foldl (fun acc x => insertStr x acc) []

/-- The fields of an `ArchInfo` record used by processor matching.
`submodel_aliases` keeps the stored order of the lexed pattern/value pairs. -/
structure ArchInfo where
  basename : String
  aliases : List String
  submodel_aliases : List (String × String)
  submodels : List String
deriving DecidableEq, Repr

/-- The inner `for sm_alias in ainfo.submodel_aliases` loop of
`canon_processor`: first alias pattern matching `proc` gives its value. -/
def findSubmodelAlias (pairs : List (String × String)) (proc : String) :
    Option String :=
  match pairs with
  | [] => none
  | (pat, v) :: rest =>
    if reMatch pat proc then some v else findSubmodelAlias rest proc

/-- The inner `for submodel in ainfo.submodels` loop of `canon_processor`:
first submodel pattern matching `proc`, returned as-is. -/
def findSubmodel (pats : List String) (proc : String) : Option String :=
  match pats with
  | [] => none
  | pat :: rest => if reMatch pat proc then some pat else findSubmodel rest proc

/-- `canon_processor(archinfo, proc)` from the source, iterating the
architectures in stored order.  `none` models the raised
`"Unknown or unidentifiable processor"` exception. -/
def canon_processor (archs : List ArchInfo) (proc : String) :
    Option (String × String) :=
  match archs with
  | [] => none
  | a :: rest =>
    if a.basename = proc ∨ proc ∈ a.aliases then some (a.basename, a.basename)
    else
      match findSubmodelAlias a.submodel_aliases proc with
      | some v => some (a.basename, v)
      | none =>
        match findSubmodel a.submodels proc with
        | some sm => some (a.basename, sm)
        | none => canon_processor rest proc

/-- What a single architecture yields for a requested name, written from the
spec's per-architecture description (with the submodel branch amended to
return the matched submodel pattern). -/
def archMatchSpec (a : ArchInfo) (proc : String) : Option (String × String) :=
  if a.basename = proc ∨ proc ∈ a.aliases then some (a.basename, a.basename)
  else
    match (a.submodel_aliases.find? fun kv => reMatch kv.1 proc) with
    | some kv => some (a.basename, kv.2)
    | none =>
      ((a.submodels.find? fun sm => reMatch sm proc).map
        fun sm => (a.basename, sm))

/-- Canonicalization as the spec phrases it: the first architecture to
produce any match wins; no match anywhere is the fatal error (`none`). -/
def canonSpec (archs : List ArchInfo) (proc : String) :
    Option (String × String) :=
  archs.findSome? (archMatchSpec · proc)

/-- The normalization `guess_processor` applies to `platform.processor()`:
spaces removed, lowercased, then the vendor markers stripped. -/
def normalizeProc (s : String) : String :=
  pyReplace (pyReplace (toLowerB (pyReplace s " " "")) "(tm)" "") "(r)" ""

/-- The main loop of `guess_processor`: `base` is the mutable `base_proc`,
`full` the normalized `full_proc`.  An architecture whose name or alias
matches the current `base` renames it to the canonical name even when none
of its submodel patterns match `full`. -/
def guessLoop (full : String) (base : String) :
    List ArchInfo → String × String
  | [] => (base, base)
  | a :: rest =>
    if a.basename = base ∨ base ∈ a.aliases then
      match findSubmodelAlias a.submodel_aliases full with
      | some v => (a.basename, v)
      | none =>
        match findSubmodel a.submodels full with
        | some sm => (a.basename, sm)
        | none => guessLoop full a.basename rest
    else guessLoop full base rest

/-- `guess_processor(archinfo)` from the source, with the host-reported
`platform.machine()` and `platform.processor()` strings made explicit
parameters. -/
def guess_processor (archs : List ArchInfo) (machine processor : String) :
    String × String :=
  guessLoop (normalizeProc processor) machine archs

/-- The canonical base name `guess_processor`'s loop threads through: each
architecture whose name or alias matches the current base renames it. -/
def canonBase (base : String) : List ArchInfo → String
  | [] => base
  | a :: rest =>
    if a.basename = base ∨ base ∈ a.aliases then canonBase a.basename rest
    else canonBase base rest

/-- How the `mach_opt` parser can fail: `sepErr` is the explicit
`"Parsing err in ... mach_opt"` exception raised when the second token of a
record is not `->`; `idxErr` is the `IndexError` a `pop(0)` on an exhausted
list raises. -/
inductive MachOptErr where
  | sepErr
  | idxErr
deriving DecidableEq, Repr

/-- The `while self.mach_opt != []` parsing loop of `CompilerInfo.__init__`,
accumulating `mach_opt_flags` (a dict, so `dinsert`).  After popping the
processor name, the separator and the flags, a regex token is popped exactly
when the popped-from list is nonempty and either has exactly one token or
its second token is not `->`. -/
def parseMachOpt : List String → List (String × String × String) →
    Except MachOptErr (List (String × String × String))
  | [], acc => .ok acc
  | [_], _ => .error .idxErr
  | [_, sep], _ =>
    if sep ≠ "->" then .error .sepErr else .error .idxErr
  | [p, sep, f], acc =>
    if sep ≠ "->" then .error .sepErr else .ok (dinsert p (f, "") acc)
  | p :: sep :: f :: rest'@(r :: rest''), acc =>
    if sep ≠ "->" then .error .sepErr
    else if rest'.length = 1 ∨ rest''.head? ≠ some "->" then
      parseMachOpt rest'' (dinsert p (f, r) acc)
    else
      parseMachOpt rest' (dinsert p (f, "") acc)

/-- The states of the spec's explicit machine-optimization record grammar:
read-name, expect-separator, read-flags, optional-read-regex. -/
inductive MOState where
  | readName
  | expectSep (p : String)
  | readFlags (p : String)
  | maybeRegex (p f : String)
deriving DecidableEq, Repr

/-- Rank used only for termination: `maybeRegex` may hand over to `readName`
without consuming a token. -/
def MOState.rank : MOState → Nat
  | .readName => 0
  | .expectSep _ => 0
  | .readFlags _ => 0
  | .maybeRegex _ _ => 1

/-- The machine-optimization table grammar as the spec words it, run as an
explicit state machine: processor-name, mandatory `->` separator (else the
fatal parse error), flags string, and then a regex string consumed if and
only if at least one token remains and either exactly one token remains or
the second remaining token is not `->`. -/
def machOptRun (st : MOState) (toks : List String)
    (acc : List (String × String × String)) :
    Except MachOptErr (List (String × String × String)) :=
  match st, toks with
  | .readName, [] => .ok acc
  | .readName, t :: ts => machOptRun (.expectSep t) ts acc
  | .expectSep _, [] => .error .idxErr
  | .expectSep p, t :: ts =>
    if t = "->" then machOptRun (.readFlags p) ts acc else .error .sepErr
  | .readFlags _, [] => .error .idxErr
  | .readFlags p, t :: ts => machOptRun (.maybeRegex p t) ts acc
  | .maybeRegex p f, [] => .ok (dinsert p (f, "") acc)
  | .maybeRegex p f, t :: ts =>
    if ts = [] ∨ ts.head? ≠ some "->" then
      machOptRun .readName ts (dinsert p (f, t) acc)
    else
      machOptRun .readName (t :: ts) (dinsert p (f, "") acc)
termination_by toks.length * 2 + st.rank
decreasing_by all_goals (simp [MOState.rank] <;> omega)

/-- `submodel_fixup(tup)` inside `CompilerInfo.mach_opts`: substitute for the
`SUBMODEL` marker the submodel name with the record's regex string removed. -/
def submodel_fixup (submodel : String) (tup : String × String) : String :=
  pyReplace tup.1 "SUBMODEL" (pyReplace submodel tup.2 "")

/-- `CompilerInfo.mach_opts(arch, submodel)` from the source: an exact
submodel entry wins over an architecture-family entry; no entry yields the
empty flag string. -/
def mach_opts (flags : List (String × String × String))
    (arch submodel : String) : String :=
  match alookup submodel flags with
  | some tup => submodel_fixup submodel tup
  | none =>
    match alookup arch flags with
    | some tup => submodel_fixup submodel tup
    | none => ""

/-- The fields of a `ModuleInfo` record used by module selection and by the
derived build-configuration lists.  `libs` is the per-OS external-library
requirement map. -/
structure ModuleInfo where
  cc : List String
  os : List String
  arch : List String
  add : List String
  libs : List (String × String)
deriving DecidableEq, Repr

/-- The requested target: `options.compiler`, `options.os`, `options.arch`
and `options.cpu` at the time `choose_modules_to_use` runs. -/
structure TargetOptions where
  compiler : String
  os : String
  arch : String
  cpu : String
deriving DecidableEq, Repr

/-- The three elimination tests of `choose_modules_to_use`, as a keep
predicate: an empty constraint list is unconstrained on that dimension. -/
def modulePasses (opts : TargetOptions) (m : ModuleInfo) : Bool :=
  !(m.cc ≠ [] ∧ opts.compiler ∉ m.cc) &&
  !(m.os ≠ [] ∧ opts.os ∉ m.os) &&
  !(m.arch ≠ [] ∧ opts.arch ∉ m.arch ∧ opts.cpu ∉ m.arch)

/-- `choose_modules_to_use(options, modules)` from the source. -/
def choose_modules_to_use (opts : TargetOptions) (modules : List ModuleInfo) :
    List ModuleInfo :=
  modules.filter (modulePasses opts)

/-- `sum([mod.add for mod in modules], [])`: every file contributed by the
selected modules, in module order. -/
def allFiles (modules : List ModuleInfo) : List String :=
  (modules.map (·.add)).flatten

/-- `BuildConfigurationInformation.headers`: the contributed files ending in
`.h`, sorted (duplicates kept, exactly as `sorted([...])` keeps them). -/
def headers (modules : List ModuleInfo) : List String :=
  sortStr ((allFiles modules).filter (endsWithB · ".h"))

/-- `BuildConfigurationInformation.sources`:
`sorted(set(all_files) - set(headers))`. -/
def sources (modules : List ModuleInfo) : List String :=
  setSorted ((allFiles modules).filter fun f => decide (f ∉ headers modules))

/-- Whether one `module.libs` key selects the library for the target OS:
the key is `all`, or the OS itself, or an `all!OS1,OS2,...` exclusion list
not naming the OS (the model of `re.match('^all!(.*)', osname)` plus the
comma split). -/
def libApplies (osname osbase : String) : Bool :=
  if osname = "all" ∨ osname = osbase then true
  else
    startsWithB osname "all!" &&
      decide (osbase ∉ splitComma ⟨osname.data.drop 4⟩)

/-- `link_to()` from `create_template_vars`: the sorted duplicate-free set of
every selected module's applicable library names for the target OS. -/
def link_to (osbase : String) (modules : List ModuleInfo) : List String :=
  setSorted
    ((modules.map fun m =>
        (m.libs.filter fun kv => libApplies kv.1 osbase).map (·.2)).flatten)

/-- The record object `lex_me_harder` populates: group lists and scalar
fields live in separate maps here (in the Python original both live in the
object's attribute dictionary; all entity kinds declare disjoint group and
field names, so the separation is observationally faithful). -/
structure LexRecord where
  groupsVal : List (String × List String)
  fieldsVal : List (String × Option String)
deriving DecidableEq, Repr

/-- The record as initialized before lexing: every declared group empty,
every scalar field at its declared default. -/
def initRecord (groups : List String)
    (fields : List (String × Option String)) : LexRecord :=
  ⟨groups.map (fun g => (g, [])), fields⟩

/-- Scalar-field assignment `to_obj.__dict__[token] = lex.get_token()`;
a `none` value models `get_token` returning `None` at end of input. -/
def setField (r : LexRecord) (k : String) (v : Option String) : LexRecord :=
  ⟨r.groupsVal, dinsert k v r.fieldsVal⟩

/-- Append tokens to one group's list, leaving everything else unchanged. -/
def appendAssoc (g : String) (body : List String) :
    List (String × List String) → List (String × List String)
  | [] => [(g, body)]
  | (k, v) :: rest =>
    if k = g then (k, v ++ body) :: rest else (k, v) :: appendAssoc g body rest

/-- The effect of one `<g> ... </g>` section on the record. -/
def appendGroup (r : LexRecord) (g : String) (body : List String) : LexRecord :=
  ⟨appendAssoc g body r.groupsVal, r.fieldsVal⟩

/-- The value of `r`'s group `g`. -/
def getGroup (r : LexRecord) (g : String) : Option (List String) :=
  alookup g r.groupsVal

/-- Model of `re.match('<(.*)>', token)`: the token must start with `<` and
contain a later `>`; the greedy group captures everything between the
leading `<` and the last `>`. -/
def groupOf (t : String) : Option String :=
  match t.data with
  | '<' :: rest =>
    if '>' ∈ rest then
      some ⟨((rest.reverse.dropWhile (· ≠ '>')).tail).reverse⟩
    else none
  | _ => none

/-- The `'</' + group + '>'` end marker. -/
def endMarker (g : String) : String := "</" ++ g ++ ">"

/-- The inner `while token != None and token != end_marker` loop: the tokens
collected into the open group, and the tokens left after the end marker
(everything is collected when the end marker never occurs). -/
def splitGroup (em : String) : List String → List String × List String
  | [] => ([], [])
  | t :: ts =>
    if t = em then ([], ts)
    else
      let p := splitGroup em ts
      (t :: p.1, p.2)

/-- The lexer's fatal errors: an unknown group name or a bad token. -/
inductive LexErr where
  | unknownGroup (g : String)
  | badToken (t : String)
deriving DecidableEq, Repr

/-- The token-level core of `lex_me_harder`: process the token stream of one
metadata file against the declared groups and scalar fields, updating the
record.  A `<g>` token opens declared group `g` and collects raw tokens up to
`</g>` (or to end of input); a declared field name consumes the next token as
its value; anything else is fatal. -/
def lexTokens (groups : List String) (fields : List (String × Option String)) :
    List String → LexRecord → Except LexErr LexRecord
  | [], r => .ok r
  | t :: rest, r =>
    match groupOf t with
    | some g =>
      if g ∈ groups then
        lexTokens groups fields (splitGroup (endMarker g) rest).2
          (appendGroup r g (splitGroup (endMarker g) rest).1)
      else .error (.unknownGroup g)
    | none =>
      if (alookup t fields).isSome then
        match rest with
        | [] => .ok (setField r t none)
        | v :: rest' => lexTokens groups fields rest' (setField r t (some v))
      else .error (.badToken t)
termination_by toks _ => toks.length
decreasing_by
  · have h : ∀ l : List String, (splitGroup (endMarker g) l).2.length ≤ l.length := by
      intro l
      induction l with
      | nil => simp [splitGroup]
      | cons t ts ih =>
        by_cases ht : t = endMarker g
        · simp [splitGroup, ht]
        · simp only [splitGroup, if_neg ht, List.length_cons]
          omega
    exact Nat.lt_succ_of_le (h rest)
  · simp only [List.length_cons]
    omega

/-- `lex_me_harder` at the token level: run the lexer from the initialized
record. -/
def lex_me_harder (groups : List String)
    (fields : List (String × Option String)) (toks : List String) :
    Except LexErr LexRecord :=
  lexTokens groups fields toks (initRecord groups fields)

/-! ### Association-list lemmas -/

theorem alookup_dinsert_ne {α : Type} (k k' : String) (v : α)
    (l : List (String × α)) (h : k ≠ k') :
    alookup k' (dinsert k v l) = alookup k' l := by
  induction l with
  | nil => simp [dinsert, alookup, h]
  | cons kv rest ih =>
    obtain ⟨k₀, v₀⟩ := kv
    by_cases hk : k₀ = k
    · subst hk
      simp [dinsert, alookup, h]
    · simp only [dinsert, if_neg hk, alookup]
      by_cases hk' : k₀ = k'
      · simp [hk']
      · simp [hk', ih]

/-! ### Boolean string-order bridge lemmas -/

theorem lexLtCh_iff (cs : List Char) : ∀ ds,
    lexLtCh cs ds = true ↔ List.Lex (· < ·) cs ds := by
  induction cs with
  | nil =>
    intro ds
    cases ds with
    | nil => simp [lexLtCh]
    | cons d ds => simp [lexLtCh, List.Lex.nil]
  | cons c cs ih =>
    intro ds
    cases ds with
    | nil => simp [lexLtCh]
    | cons d ds =>
      by_cases hcd : c < d
      · have ht : lexLtCh (c :: cs) (d :: ds) = true := by
          simp [lexLtCh, hcd]
        exact iff_of_true ht (List.Lex.rel hcd)
      · by_cases hdc : d < c
        · have hf : lexLtCh (c :: cs) (d :: ds) = false := by
            simp [lexLtCh, hcd, hdc]
          rw [hf]
          refine iff_of_false (by simp) ?_
          intro h
          cases h with
          | cons h' => exact lt_irrefl c hdc
          | rel h' => exact hcd h'
        · have hce : c = d := le_antisymm (le_of_not_lt hdc) (le_of_not_lt hcd)
          subst hce
          simp only [lexLtCh, if_neg hcd, if_neg hdc]
          exact (ih ds).trans List.Lex.cons_iff.symm

theorem strLt_iff (a b : String) : strLt a b = true ↔ a < b := by
  rw [String.lt_iff_toList_lt]
  exact lexLtCh_iff a.data b.data

theorem strLt_false_iff (a b : String) : strLt a b = false ↔ ¬a < b := by
  rw [← strLt_iff]
  cases strLt a b <;> simp

theorem strLe_iff (a b : String) : strLe a b = true ↔ a ≤ b := by
  rw [strLe, Bool.not_eq_true', strLt_false_iff, not_lt]

theorem strLe_false_iff (a b : String) : strLe a b = false ↔ ¬a ≤ b := by
  rw [← strLe_iff]
  cases strLe a b <;> simp

/-! ### Sorted-set insertion lemmas (`sorted(set(...))` model) -/

theorem mem_insertStr (a x : String) (l : List String) :
    a ∈ insertStr x l ↔ a = x ∨ a ∈ l := by
  induction l with
  | nil => simp [insertStr]
  | cons y ys ih =>
    by_cases h1 : strLt x y = true
    · simp [insertStr, h1]
    · rw [Bool.not_eq_true] at h1
      by_cases h2 : x = y
      · subst h2
        simp only [insertStr, h1, Bool.false_eq_true, if_false, if_pos rfl]
        constructor
        · intro h; exact Or.inr h
        · rintro (rfl | h) <;> simp_all
      · simp only [insertStr, h1, Bool.false_eq_true, if_false, if_neg h2,
          List.mem_cons, ih]
        tauto

theorem pairwise_insertStr (x : String) (l : List String)
    (h : l.Pairwise (· < ·)) : (insertStr x l).Pairwise (· < ·) := by
  induction l with
  | nil => simp [insertStr]
  | cons y ys ih =>
    rcases List.pairwise_cons.mp h with ⟨hy, hys⟩
    by_cases h1 : strLt x y = true
    · simp only [insertStr, if_pos h1]
      have hxy : x < y := (strLt_iff x y).mp h1
      refine List.pairwise_cons.mpr ⟨?_, h⟩
      intro b hb
      rcases List.mem_cons.mp hb with rfl | hb
      · exact hxy
      · exact lt_trans hxy (hy b hb)
    · rw [Bool.not_eq_true] at h1
      have hnlt : ¬x < y := (strLt_false_iff x y).mp h1
      by_cases h2 : x = y
      · subst h2
        simpa [insertStr, h1] using h
      · have hyx : y < x :=
          lt_of_le_of_ne (le_of_not_lt hnlt) (Ne.symm h2)
        simp only [insertStr, h1, Bool.false_eq_true, if_false, if_neg h2]
        refine List.pairwise_cons.mpr ⟨?_, ih hys⟩
        intro b hb
        rcases (mem_insertStr b x ys).mp hb with rfl | hb
        · exact hyx
        · exact hy b hb

theorem foldl_insertStr_pairwise (l acc : List String)
    (h : acc.Pairwise (· < ·)) :
    (l.foldl (fun a x => insertStr x a) acc).Pairwise (· < ·) := by
  induction l generalizing acc with
  | nil => simpa using h
  | cons y ys ih => exact ih _ (pairwise_insertStr y acc h)

theorem mem_foldl_insertStr (l : List String) (acc : List String) (a : String) :
    a ∈ l.foldl (fun a x => insertStr x a) acc ↔ a ∈ acc ∨ a ∈ l := by
  induction l generalizing acc with
  | nil => simp
  | cons y ys ih =>
    simp only [List.foldl_cons, ih, mem_insertStr, List.mem_cons]
    tauto

theorem setSorted_pairwise (l : List String) :
    (setSorted l).Pairwise (· < ·) :=
  foldl_insertStr_pairwise l [] (List.Pairwise.nil)

theorem mem_setSorted (a : String) (l : List String) :
    a ∈ setSorted l ↔ a ∈ l := by
  simp [setSorted, mem_foldl_insertStr]

/-! ### Sorting-with-duplicates lemmas (`sorted(...)` model) -/

theorem insertLe_perm (x : String) (l : List String) :
    List.Perm (insertLe x l) (x :: l) := by
  induction l with
  | nil => simp [insertLe]
  | cons y ys ih =>
    by_cases h : strLe x y = true
    · simp [insertLe, h]
    · rw [Bool.not_eq_true] at h
      simp only [insertLe, h, Bool.false_eq_true, if_false]
      exact List.Perm.trans (List.Perm.cons y ih) (List.Perm.swap x y ys)

theorem mem_insertLe (a x : String) (l : List String) :
    a ∈ insertLe x l ↔ a = x ∨ a ∈ l := by
  rw [(insertLe_perm x l).mem_iff]
  simp

theorem pairwise_insertLe (x : String) (l : List String)
    (h : l.Pairwise (· ≤ ·)) : (insertLe x l).Pairwise (· ≤ ·) := by
  induction l with
  | nil => simp [insertLe]
  | cons y ys ih =>
    rcases List.pairwise_cons.mp h with ⟨hy, hys⟩
    by_cases h1 : strLe x y = true
    · simp only [insertLe, if_pos h1]
      have hxy : x ≤ y := (strLe_iff x y).mp h1
      refine List.pairwise_cons.mpr ⟨?_, h⟩
      intro b hb
      rcases List.mem_cons.mp hb with rfl | hb
      · exact hxy
      · exact le_trans hxy (hy b hb)
    · rw [Bool.not_eq_true] at h1
      have hnle : ¬x ≤ y := (strLe_false_iff x y).mp h1
      simp only [insertLe, h1, Bool.false_eq_true, if_false]
      refine List.pairwise_cons.mpr ⟨?_, ih hys⟩
      intro b hb
      rcases (mem_insertLe b x ys).mp hb with rfl | hb
      · exact le_of_not_le hnle
      · exact hy b hb

theorem sortStr_perm (l : List String) : List.Perm (sortStr l) l := by
  induction l with
  | nil => simp [sortStr]
  | cons y ys ih =>
    exact List.Perm.trans (insertLe_perm y (sortStr ys)) (List.Perm.cons y ih)

theorem sortStr_pairwise (l : List String) :
    (sortStr l).Pairwise (· ≤ ·) := by
  induction l with
  | nil => exact List.Pairwise.nil
  | cons y ys ih => exact pairwise_insertLe y (sortStr ys) ih

theorem mem_sortStr (a : String) (l : List String) :
    a ∈ sortStr l ↔ a ∈ l :=
  (sortStr_perm l).mem_iff

/-! ### Stride-3 coercion (`force_to_dict`) -/

theorem everyThird_cons (z : String) (xs : List String) :
    everyThird (z :: xs) = z :: everyThird (xs.drop 2) := by
  match xs with
  | [] => rfl
  | [a] => rfl
  | a :: b :: t => rfl

theorem force_to_dict_cons3 (x y z : String) (xs : List String) :
    force_to_dict (x :: y :: z :: xs) = (x, z) :: force_to_dict xs := by
  show (everyThird (x :: y :: z :: xs)).zip
      (everyThird ((x :: y :: z :: xs).drop 2)) = _
  rw [show everyThird (x :: y :: z :: xs) = x :: everyThird xs from rfl,
    show (x :: y :: z :: xs).drop 2 = z :: xs from rfl, everyThird_cons]
  rfl

theorem force_to_dict_take (l : List String) :
    force_to_dict l = force_to_dict (l.take (3 * (l.length / 3))) := by
  induction l using everyThird.induct with
  | case1 => rfl
  | case2 x => simp [force_to_dict, everyThird]
  | case3 x y => simp [force_to_dict, everyThird]
  | case4 x y z xs ih =>
    have h3 : (x :: y :: z :: xs).length / 3 = xs.length / 3 + 1 := by
      simp only [List.length_cons]
      omega
    have htake : (x :: y :: z :: xs).take (3 * ((x :: y :: z :: xs).length / 3)) =
        x :: y :: z :: xs.take (3 * (xs.length / 3)) := by
      rw [h3, show 3 * (xs.length / 3 + 1) = 3 * (xs.length / 3) + 3 by ring]
      simp [List.take_succ_cons]
    rw [force_to_dict_cons3, htake, force_to_dict_cons3, ← ih]

/-- C4 counterexample: on the one-token list `["all"]` (token count 1, not a
multiple of three) the coercion raises nothing and returns a map — the empty
one — refuting the claim that a Malformed-table error is raised. -/
theorem force_to_dict_counterexample :
    (List.length ["all"]) % 3 ≠ 0 ∧ force_to_dict ["all"] = [] :=
  ⟨by decide, by decide⟩

/-- C4 (amended): for every lexed flat group list whose token count is not a
multiple of three, the mapping coercion raises no error and silently
truncates: it produces the same map as the longest complete-triple prefix of
the list. -/
theorem force_to_dict_truncation (l : List String) (_h : l.length % 3 ≠ 0) :
    force_to_dict l = force_to_dict (l.take (3 * (l.length / 3))) :=
  force_to_dict_take l

theorem force_to_dict_truncation_witness :
    (List.length ["all", "->", "z", "extra"]) % 3 ≠ 0 ∧
      force_to_dict ["all", "->", "z", "extra"] =
        force_to_dict (List.take
          (3 * (List.length ["all", "->", "z", "extra"] / 3))
          ["all", "->", "z", "extra"]) :=
  ⟨by decide, force_to_dict_truncation ["all", "->", "z", "extra"] (by decide)⟩

/-! ### Module selection -/

/-- C5 (confirmed): a module is selected iff it is in the pool and passes the
three constraint tests, and the filter is monotone in constraint relaxation:
emptying any one of the compiler/OS/architecture constraint lists of a module
that passes keeps it passing for the same target. -/
theorem choose_modules_monotone :
    (∀ (opts : TargetOptions) (mods : List ModuleInfo) (m : ModuleInfo),
        m ∈ choose_modules_to_use opts mods ↔
          m ∈ mods ∧ modulePasses opts m = true) ∧
    (∀ (opts : TargetOptions) (m : ModuleInfo), modulePasses opts m = true →
        modulePasses opts { m with cc := [] } = true ∧
        modulePasses opts { m with os := [] } = true ∧
        modulePasses opts { m with arch := [] } = true) := by
  constructor
  · intro opts mods m
    simp [choose_modules_to_use, List.mem_filter]
  · intro opts m h
    simp only [modulePasses, Bool.and_eq_true, Bool.not_eq_true',
      decide_eq_false_iff_not] at h ⊢
    obtain ⟨⟨h1, h2⟩, h3⟩ := h
    refine ⟨⟨⟨?_, ?_⟩, ?_⟩, ⟨⟨?_, ?_⟩, ?_⟩, ⟨⟨?_, ?_⟩, ?_⟩⟩ <;> simp_all

theorem choose_modules_monotone_witness :
    modulePasses ⟨"gcc", "linux", "ia32", "pentium4"⟩
        ⟨["gcc"], ["linux"], [], [], []⟩ = true ∧
      modulePasses ⟨"gcc", "linux", "ia32", "pentium4"⟩
        ⟨[], ["linux"], [], [], []⟩ = true :=
  ⟨by decide,
    (choose_modules_monotone.2 ⟨"gcc", "linux", "ia32", "pentium4"⟩
      ⟨["gcc"], ["linux"], [], [], []⟩ (by decide)).1⟩

/-! ### Machine-optimization flag lookup -/

/-- C3 (confirmed): when the mach-opt table holds both the specific submodel
name and the architecture-family name, the submodel entry wins, and the
chosen record's regex string is removed from the submodel name before it is
substituted for the `SUBMODEL` marker in the flag string; in particular the
`cortex-a9` entry with regex `cortex-` embeds `a9`. -/
theorem mach_opts_submodel_priority :
    (∀ (flags : List (String × String × String)) (arch submodel : String)
        (tupS tupA : String × String),
        alookup submodel flags = some tupS → alookup arch flags = some tupA →
          mach_opts flags arch submodel =
            pyReplace tupS.1 "SUBMODEL" (pyReplace submodel tupS.2 "")) ∧
    mach_opts [("cortex-a9", ("-mcpu=SUBMODEL", "cortex-"))] "arm" "cortex-a9"
      = "-mcpu=a9" := by
  constructor
  · intro flags arch submodel tupS tupA hS hA
    simp [mach_opts, hS, submodel_fixup]
  · decide

theorem mach_opts_submodel_priority_witness :
    alookup "cortex-a9"
        [("cortex-a9", ("-mcpu=SUBMODEL", "cortex-")), ("arm", ("-family", ""))]
        = some ("-mcpu=SUBMODEL", "cortex-") ∧
      alookup "arm"
        [("cortex-a9", ("-mcpu=SUBMODEL", "cortex-")), ("arm", ("-family", ""))]
        = some ("-family", "") ∧
      mach_opts
        [("cortex-a9", ("-mcpu=SUBMODEL", "cortex-")), ("arm", ("-family", ""))]
        "arm" "cortex-a9"
        = pyReplace "-mcpu=SUBMODEL" "SUBMODEL" (pyReplace "cortex-a9" "cortex-" "") :=
  ⟨by decide, by decide,
    mach_opts_submodel_priority.1
      [("cortex-a9", ("-mcpu=SUBMODEL", "cortex-")), ("arm", ("-family", ""))]
      "arm" "cortex-a9" ("-mcpu=SUBMODEL", "cortex-") ("-family", "")
      (by decide) (by decide)⟩

/-! ### External-library link list -/

/-- C6 (confirmed): the composed link list is strictly sorted (hence
duplicate-free), contains exactly the library names contributed by some
selected module under a key that is `all`, the requested OS, or an
`all!...` exclusion list not naming the OS, and on the spec's example
(`{all: z}` and `{all!windows: m}` targeting `linux`) equals `["m", "z"]`. -/
theorem link_to_spec :
    (∀ osbase mods, (link_to osbase mods).Pairwise (· < ·)) ∧
    (∀ osbase mods lib, lib ∈ link_to osbase mods ↔
        ∃ m, m ∈ mods ∧ ∃ osname libname, (osname, libname) ∈ m.libs ∧
          libApplies osname osbase = true ∧ libname = lib) ∧
    link_to "linux"
        [⟨[], [], [], ["a.cpp", "a.h"], [("all", "z")]⟩,
         ⟨[], [], [], ["b.cpp"], [("all!windows", "m")]⟩] = ["m", "z"] := by
  refine ⟨?_, ?_, by decide⟩
  · intro osbase mods
    exact setSorted_pairwise _
  · intro osbase mods lib
    rw [link_to, mem_setSorted]
    simp only [List.mem_flatten, List.mem_map, List.mem_filter]
    constructor
    · rintro ⟨L, ⟨m, hm, rfl⟩, hL⟩
      rcases List.mem_map.mp hL with ⟨kv, hkv, hv⟩
      rcases List.mem_filter.mp hkv with ⟨hmem, happ⟩
      exact ⟨m, hm, kv.1, kv.2, hmem, happ, hv⟩
    · rintro ⟨m, hm, osname, libname, hmem, happ, rfl⟩
      refine ⟨(m.libs.filter fun kv => libApplies kv.1 osbase).map (·.2),
        ⟨m, hm, rfl⟩, ?_⟩
      exact List.mem_map.mpr ⟨(osname, libname),
        List.mem_filter.mpr ⟨hmem, happ⟩, rfl⟩

theorem link_to_spec_witness :
    "m" ∈ link_to "linux"
        [⟨[], [], [], ["a.cpp", "a.h"], [("all", "z")]⟩,
         ⟨[], [], [], ["b.cpp"], [("all!windows", "m")]⟩] ↔
      ∃ m, m ∈ [(⟨[], [], [], ["a.cpp", "a.h"], [("all", "z")]⟩ : ModuleInfo),
          ⟨[], [], [], ["b.cpp"], [("all!windows", "m")]⟩] ∧
        ∃ osname libname, (osname, libname) ∈ m.libs ∧
          libApplies osname "linux" = true ∧ libname = "m" :=
  link_to_spec.2.1 "linux"
    [⟨[], [], [], ["a.cpp", "a.h"], [("all", "z")]⟩,
     ⟨[], [], [], ["b.cpp"], [("all!windows", "m")]⟩] "m"

/-! ### Build-configuration header and source lists -/

/-- C7 (confirmed): for every module set, the derived header and source
lists are disjoint; headers are weakly sorted and are exactly (as a
permutation, and by membership) the contributed files ending in `.h`;
sources are strictly sorted (hence deduplicated) and are by membership
exactly the remaining contributed files. -/
theorem build_config_invariant (mods : List ModuleInfo) :
    (∀ f, ¬(f ∈ headers mods ∧ f ∈ sources mods)) ∧
    (headers mods).Pairwise (· ≤ ·) ∧
    (sources mods).Pairwise (· < ·) ∧
    List.Perm (headers mods) ((allFiles mods).filter (endsWithB · ".h")) ∧
    (∀ f, f ∈ headers mods ↔ f ∈ allFiles mods ∧ endsWithB f ".h" = true) ∧
    (∀ f, f ∈ sources mods ↔ f ∈ allFiles mods ∧ endsWithB f ".h" = false) := by
  have hmemh : ∀ f, f ∈ headers mods ↔
      f ∈ allFiles mods ∧ endsWithB f ".h" = true := by
    intro f
    rw [headers, mem_sortStr, List.mem_filter]
  have hmems : ∀ f, f ∈ sources mods ↔
      f ∈ allFiles mods ∧ f ∉ headers mods := by
    intro f
    rw [sources, mem_setSorted, List.mem_filter]
    simp
  refine ⟨?_, ?_, ?_, ?_, hmemh, ?_⟩
  · intro f ⟨hh, hs⟩
    exact ((hmems f).mp hs).2 hh
  · exact sortStr_pairwise _
  · exact setSorted_pairwise _
  · exact sortStr_perm _
  · intro f
    rw [hmems f]
    constructor
    · rintro ⟨hall, hnh⟩
      refine ⟨hall, ?_⟩
      cases he : endsWithB f ".h"
      · rfl
      · exact absurd ((hmemh f).mpr ⟨hall, he⟩) hnh
    · rintro ⟨hall, he⟩
      refine ⟨hall, fun hh => ?_⟩
      rw [((hmemh f).mp hh).2] at he
      exact Bool.true_eq_false.mp he

theorem build_config_invariant_witness :
    ¬("a.h" ∈ headers [⟨[], [], [], ["a.cpp", "a.h"], []⟩,
          ⟨[], [], [], ["b.cpp"], []⟩] ∧
      "a.h" ∈ sources [⟨[], [], [], ["a.cpp", "a.h"], []⟩,
          ⟨[], [], [], ["b.cpp"], []⟩]) :=
  (build_config_invariant [⟨[], [], [], ["a.cpp", "a.h"], []⟩,
    ⟨[], [], [], ["b.cpp"], []⟩]).1 "a.h"

/-! ### Processor canonicalization -/

theorem findSubmodelAlias_eq (pairs : List (String × String)) (proc : String) :
    findSubmodelAlias pairs proc =
      (pairs.find? fun kv => reMatch kv.1 proc).map (·.2) := by
  induction pairs with
  | nil => rfl
  | cons kv rest ih =>
    obtain ⟨pat, v⟩ := kv
    by_cases h : reMatch pat proc = true
    · simp [findSubmodelAlias, h, List.find?_cons_of_pos]
    · rw [Bool.not_eq_true] at h
      simp [findSubmodelAlias, h, List.find?_cons_of_neg, ih]

theorem findSubmodel_eq (pats : List String) (proc : String) :
    findSubmodel pats proc = pats.find? fun sm => reMatch sm proc := by
  induction pats with
  | nil => rfl
  | cons pat rest ih =>
    by_cases h : reMatch pat proc = true
    · simp [findSubmodel, h, List.find?_cons_of_pos]
    · rw [Bool.not_eq_true] at h
      simp [findSubmodel, h, List.find?_cons_of_neg, ih]

theorem canon_processor_eq_canonSpec (archs : List ArchInfo) (proc : String) :
    canon_processor archs proc = canonSpec archs proc := by
  induction archs with
  | nil => rfl
  | cons a rest ih =>
    rw [canonSpec, List.findSome?_cons]
    by_cases h1 : a.basename = proc ∨ proc ∈ a.aliases
    · simp [canon_processor, archMatchSpec, h1]
    · simp only [canon_processor, archMatchSpec, if_neg h1]
      rw [findSubmodelAlias_eq]
      cases hfa : a.submodel_aliases.find? fun kv => reMatch kv.1 proc with
      | some kv => simp
      | none =>
        simp only [Option.map_none']
        rw [findSubmodel_eq]
        cases hfs : a.submodels.find? fun sm => reMatch sm proc with
        | some sm => simp
        | none => simpa [canonSpec] using ih

/-- C1 counterexample: against a single architecture `x86` whose literal
submodel list is `["pentium"]`, the requested name `pentium3` matches the
pattern `pentium` (prefix regex match), and the code returns the submodel
pattern `pentium`, not the requested name `pentium3` as claimed. -/
theorem canon_processor_counterexample :
    canon_processor [⟨"x86", [], [], ["pentium"]⟩] "pentium3"
        = some ("x86", "pentium") ∧
      some (("x86" : String), ("pentium" : String))
        ≠ some (("x86" : String), ("pentium3" : String)) :=
  ⟨by decide, by decide⟩

/-- C1 (amended): canonicalization returns, for the first architecture
producing any match, the canonical pair for a name/alias match, the aliased
submodel name for a submodel-alias pattern match, and otherwise the matched
literal submodel pattern (not the requested name); no match anywhere is the
fatal unknown-processor error, and the `armv7-a` example yields
`(arm, armv7a)`. -/
theorem canon_processor_spec :
    (∀ archs proc, canon_processor archs proc = canonSpec archs proc) ∧
    (∀ archs proc, canon_processor archs proc = none ↔
        ∀ a ∈ archs, archMatchSpec a proc = none) ∧
    canon_processor [⟨"arm", [], [("armv7.*", "armv7a")], []⟩] "armv7-a"
      = some ("arm", "armv7a") := by
  refine ⟨canon_processor_eq_canonSpec, ?_, by decide⟩
  intro archs proc
  rw [canon_processor_eq_canonSpec, canonSpec, List.findSome?_eq_none_iff]

theorem canon_processor_spec_witness :
    canon_processor [⟨"arm", [], [("armv7.*", "armv7a")], []⟩] "armv7-a"
      = canonSpec [⟨"arm", [], [("armv7.*", "armv7a")], []⟩] "armv7-a" :=
  canon_processor_spec.1 [⟨"arm", [], [("armv7.*", "armv7a")], []⟩] "armv7-a"

/-! ### Processor autodetection -/

theorem guessLoop_no_match (full : String) (archs : List ArchInfo) :
    ∀ base,
      (∀ a ∈ archs, findSubmodelAlias a.submodel_aliases full = none ∧
        findSubmodel a.submodels full = none) →
      guessLoop full base archs = (canonBase base archs, canonBase base archs) := by
  induction archs with
  | nil => intro base h; rfl
  | cons a rest ih =>
    intro base h
    have ha := h a (List.mem_cons_self a rest)
    have hrest := fun x hx => h x (List.mem_cons_of_mem a hx)
    by_cases hc : a.basename = base ∨ base ∈ a.aliases
    · simp only [guessLoop, canonBase, if_pos hc, ha.1, ha.2]
      exact ih a.basename hrest
    · simp only [guessLoop, canonBase, if_neg hc]
      exact ih base hrest

/-- C8 counterexample: with one architecture `ia32` aliasing `x86` and no
submodel patterns at all, autodetection for host machine string `x86`
returns `(ia32, ia32)` — the canonicalized name — not the raw reported
machine string `x86` as claimed. -/
theorem guess_processor_counterexample :
    guess_processor [⟨"ia32", ["x86"], [], []⟩] "x86" "" = ("ia32", "ia32") ∧
      (("ia32" : String), ("ia32" : String))
        ≠ (("x86" : String), ("x86" : String)) :=
  ⟨by decide, by decide⟩

/-- C8 (amended): when no architecture's submodel-alias or literal submodel
pattern matches the normalized processor string, autodetection raises no
error and returns, as both architecture and submodel, the machine string
canonicalized through the architecture name/alias renaming loop (the raw
machine string exactly when no architecture renames it). -/
theorem guess_processor_fallback (archs : List ArchInfo)
    (machine processor : String)
    (h : ∀ a ∈ archs,
        findSubmodelAlias a.submodel_aliases (normalizeProc processor) = none ∧
        findSubmodel a.submodels (normalizeProc processor) = none) :
    guess_processor archs machine processor =
      (canonBase machine archs, canonBase machine archs) :=
  guessLoop_no_match (normalizeProc processor) archs machine h

theorem guess_processor_fallback_witness :
    guess_processor [⟨"ia32", ["x86"], [], []⟩, ⟨"amd64", ["x86_64"], [], []⟩]
        "x86" "someproc" =
      (canonBase "x86" [⟨"ia32", ["x86"], [], []⟩, ⟨"amd64", ["x86_64"], [], []⟩],
       canonBase "x86" [⟨"ia32", ["x86"], [], []⟩, ⟨"amd64", ["x86_64"], [], []⟩]) :=
  guess_processor_fallback
    [⟨"ia32", ["x86"], [], []⟩, ⟨"amd64", ["x86_64"], [], []⟩]
    "x86" "someproc" (by decide)

/-! ### Machine-optimization table parsing -/

theorem parseMachOpt_eq_aux : ∀ (n : Nat) (toks : List String)
    (acc : List (String × String × String)), toks.length ≤ n →
    parseMachOpt toks acc = machOptRun .readName toks acc := by
  intro n
  induction n with
  | zero =>
    intro toks acc h
    match toks with
    | [] => simp [parseMachOpt, machOptRun]
    | t :: ts => simp at h
  | succ n ih =>
    intro toks acc h
    match toks with
    | [] => simp [parseMachOpt, machOptRun]
    | [p] => simp [parseMachOpt, machOptRun]
    | [p, s] =>
      by_cases hs : s = "->" <;>
        simp [parseMachOpt, machOptRun, hs]
    | [p, s, f] =>
      by_cases hs : s = "->" <;>
        simp [parseMachOpt, machOptRun, hs]
    | p :: s :: f :: r :: rest =>
      by_cases hs : s = "->"
      · subst hs
        have hlen : rest.length + 4 ≤ n + 1 := by
          simpa using h
        cases rest with
        | nil => simp [parseMachOpt, machOptRun]
        | cons r2 rest2 =>
          by_cases hr2 : r2 = "->"
          · simp only [parseMachOpt, machOptRun, hr2]
            rw [ih (r :: "->" :: rest2) _ (by simp at hlen ⊢; omega)]
            simp [machOptRun]
          · simp only [parseMachOpt, machOptRun, hr2]
            rw [ih (r2 :: rest2) _ (by simp at hlen ⊢; omega)]
            simp [machOptRun, hr2]
      · simp [parseMachOpt, machOptRun, hs]

/-- C2 (confirmed): the `mach_opt` token-stream parser of
`CompilerInfo.__init__` computes exactly the record grammar the spec
describes, here rendered as the explicit state machine `machOptRun`
(read-name, expect-separator — fatal parse error when the second token of a
record is not `->` — read-flags, and a regex consumed iff at least one token
remains and either exactly one remains or the second remaining token is not
`->`), accumulating a map from processor-or-family name to (flags, regex)
with regex defaulting to the empty string. -/
theorem parseMachOpt_spec (toks : List String)
    (acc : List (String × String × String)) :
    parseMachOpt toks acc = machOptRun .readName toks acc :=
  parseMachOpt_eq_aux toks.length toks acc le_rfl

/-! ### Record lexer -/

theorem groupOf_open (g : String) : groupOf ("<" ++ g ++ ">") = some g := by
  have hdata : ("<" ++ g ++ ">").data = '<' :: (g.data ++ ['>']) := by
    simp [String.data_append]
  rw [groupOf, hdata]
  have hmem : '>' ∈ g.data ++ ['>'] := by simp
  simp only [hmem, if_pos]
  have hrev : (g.data ++ ['>']).reverse = '>' :: g.data.reverse := by simp
  rw [hrev]
  have hdrop : List.dropWhile (fun c => decide (c ≠ '>')) ('>' :: g.data.reverse)
      = '>' :: g.data.reverse := by
    rw [List.dropWhile_cons_of_neg]
    simp
  simp [hdrop]

theorem splitGroup_not_mem (em : String) (l : List String) (h : em ∉ l) :
    splitGroup em l = (l, []) := by
  induction l with
  | nil => rfl
  | cons t ts ih =>
    have hne : t ≠ em := fun he => h (he ▸ List.mem_cons_self t ts)
    have hts : em ∉ ts := fun hm => h (List.mem_cons_of_mem t hm)
    simp [splitGroup, hne, ih hts]

theorem splitGroup_append (em : String) (body rest : List String)
    (h : em ∉ body) : splitGroup em (body ++ em :: rest) = (body, rest) := by
  induction body with
  | nil => simp [splitGroup]
  | cons t ts ih =>
    have hne : t ≠ em := fun he => h (he ▸ List.mem_cons_self t ts)
    have hts : em ∉ ts := fun hm => h (List.mem_cons_of_mem t hm)
    simp [splitGroup, hne, ih hts]

theorem splitGroup_snd_subset (em : String) (l : List String) :
    ∀ x, x ∈ (splitGroup em l).2 → x ∈ l := by
  induction l with
  | nil => intro x hx; simp [splitGroup] at hx
  | cons t ts ih =>
    intro x hx
    by_cases h : t = em
    · simp only [splitGroup, if_pos h] at hx
      exact List.mem_cons_of_mem t hx
    · simp only [splitGroup, if_neg h] at hx
      exact List.mem_cons_of_mem t (ih x hx)

theorem splitGroup_len (em : String) (l : List String) :
    (splitGroup em l).2.length ≤ l.length := by
  induction l with
  | nil => simp [splitGroup]
  | cons t ts ih =>
    by_cases h : t = em
    · simp [splitGroup, h]
    · simp only [splitGroup, if_neg h, List.length_cons]
      omega

theorem lexTokens_cons (groups : List String)
    (fields : List (String × Option String)) (t : String)
    (rest : List String) (r : LexRecord) :
    lexTokens groups fields (t :: rest) r =
      match groupOf t with
      | some g =>
        if g ∈ groups then
          lexTokens groups fields (splitGroup (endMarker g) rest).2
            (appendGroup r g (splitGroup (endMarker g) rest).1)
        else .error (.unknownGroup g)
      | none =>
        if (alookup t fields).isSome then
          match rest with
          | [] => .ok (setField r t none)
          | v :: rest' => lexTokens groups fields rest' (setField r t (some v))
        else .error (.badToken t) := by
  match rest with
  | [] => rw [lexTokens]
  | v :: rest' => rw [lexTokens]

theorem lexTokens_preserves_field : ∀ (n : Nat) (toks : List String),
    toks.length ≤ n →
    ∀ (groups : List String) (fields : List (String × Option String))
      (f : String) (r r' : LexRecord), f ∉ toks →
      lexTokens groups fields toks r = .ok r' →
      alookup f r'.fieldsVal = alookup f r.fieldsVal := by
  intro n
  induction n with
  | zero =>
    intro toks hlen groups fields f r r' hf hok
    match toks with
    | [] =>
      simp only [lexTokens, Except.ok.injEq] at hok
      rw [← hok]
    | t :: ts => simp at hlen
  | succ n ih =>
    intro toks hlen groups fields f r r' hf hok
    match toks with
    | [] =>
      simp only [lexTokens, Except.ok.injEq] at hok
      rw [← hok]
    | t :: rest =>
      have hft : f ≠ t := fun he => hf (he ▸ List.mem_cons_self t rest)
      have hfrest : f ∉ rest := fun hm => hf (List.mem_cons_of_mem t hm)
      rw [lexTokens_cons] at hok
      cases hG : groupOf t with
      | some g =>
        simp only [hG] at hok
        by_cases hg : g ∈ groups
        · simp only [if_pos hg] at hok
          have hsub : f ∉ (splitGroup (endMarker g) rest).2 := fun hm =>
            hfrest (splitGroup_snd_subset (endMarker g) rest f hm)
          have hlen2 : (splitGroup (endMarker g) rest).2.length ≤ n := by
            have := splitGroup_len (endMarker g) rest
            simp only [List.length_cons] at hlen
            omega
          have := ih _ hlen2 groups fields f
            (appendGroup r g (splitGroup (endMarker g) rest).1) r' hsub hok
          rwa [appendGroup] at this
        · simp only [if_neg hg] at hok
          cases hok
      | none =>
        simp only [hG] at hok
        by_cases hfld : (alookup t fields).isSome = true
        · simp only [if_pos hfld] at hok
          match rest, hok with
          | [], hok =>
            simp only [Except.ok.injEq] at hok
            rw [← hok, setField]
            exact alookup_dinsert_ne t f none r.fieldsVal (fun he => hft he.symm)
          | v :: rest', hok =>
            have hfrest' : f ∉ rest' := fun hm =>
              hfrest (List.mem_cons_of_mem v hm)
            have hlen2 : rest'.length ≤ n := by
              simp only [List.length_cons] at hlen
              omega
            have := ih _ hlen2 groups fields f
              (setField r t (some v)) r' hfrest' hok
            rw [this, setField]
            exact alookup_dinsert_ne t f (some v) r.fieldsVal
              (fun he => hft he.symm)
        · simp only [if_neg hfld] at hok
          cases hok

/-- C9 (confirmed): (a) when a declared scalar-field name never occurs among
an input file's tokens and lexing succeeds, the populated record still holds
that field's declared default; (b) a declared group section appends to the
group's list exactly the tokens written between its open token and its end
marker, in order, and lexing then continues after the end marker. -/
theorem lex_defaults_and_groups :
    (∀ (groups : List String) (fields : List (String × Option String))
        (toks : List String) (f : String) (d : Option String) (r : LexRecord),
        alookup f fields = some d → f ∉ toks →
        lex_me_harder groups fields toks = .ok r →
        alookup f r.fieldsVal = some d) ∧
    (∀ (groups : List String) (fields : List (String × Option String))
        (g : String) (body rest : List String) (r : LexRecord),
        g ∈ groups → endMarker g ∉ body →
        lexTokens groups fields
            (("<" ++ g ++ ">") :: (body ++ endMarker g :: rest)) r =
          lexTokens groups fields rest (appendGroup r g body)) := by
  constructor
  · intro groups fields toks f d r hd hf hok
    have hpres := lexTokens_preserves_field toks.length toks le_rfl groups
      fields f (initRecord groups fields) r hf hok
    simp only [initRecord] at hpres
    rw [hpres, hd]
  · intro groups fields g body rest r hg hnm
    rw [lexTokens_cons, groupOf_open]
    simp only [if_pos hg, splitGroup_append _ _ _ hnm]

theorem lex_defaults_and_groups_witness :
    alookup "note" [("note", some "dflt")] = some (some "dflt") ∧
      ("note" : String) ∉ ["<add>", "x.h", "</add>"] ∧
      lex_me_harder ["add"] [("note", some "dflt")] ["<add>", "x.h", "</add>"]
        = .ok ⟨[("add", ["x.h"])], [("note", some "dflt")]⟩ ∧
      alookup "note"
        (⟨[("add", ["x.h"])], [("note", some "dflt")]⟩ : LexRecord).fieldsVal
        = some (some "dflt") := by
  have hok : lex_me_harder ["add"] [("note", some "dflt")]
      ["<add>", "x.h", "</add>"]
      = .ok ⟨[("add", ["x.h"])], [("note", some "dflt")]⟩ := by
    simp [lex_me_harder, lexTokens, groupOf, splitGroup, appendGroup,
      appendAssoc, initRecord, endMarker, alookup]
  refine ⟨by decide, by decide, hok, ?_⟩
  exact lex_defaults_and_groups.1 ["add"] [("note", some "dflt")]
    ["<add>", "x.h", "</add>"] "note" (some "dflt")
    ⟨[("add", ["x.h"])], [("note", some "dflt")]⟩
    (by decide) (by decide) hok

/-- C10 (confirmed): when a declared group's open token appears and its end
marker never occurs in the remaining input, the lexer raises no error: it
appends every remaining token of the file to that group's list and returns
the record. -/
theorem lex_unterminated_group (groups : List String)
    (fields : List (String × Option String)) (g : String)
    (rest : List String) (r : LexRecord) (hg : g ∈ groups)
    (hnm : endMarker g ∉ rest) :
    lexTokens groups fields (("<" ++ g ++ ">") :: rest) r
      = .ok (appendGroup r g rest) := by
  rw [lexTokens_cons, groupOf_open]
  simp only [if_pos hg, splitGroup_not_mem _ _ hnm]
  rw [lexTokens]

theorem lex_unterminated_group_witness :
    lexTokens ["add"] [("note", some "")] ["<add>", "a.cpp", "b.h"]
        (initRecord ["add"] [("note", some "")])
      = .ok (appendGroup (initRecord ["add"] [("note", some "")]) "add"
          ["a.cpp", "b.h"]) :=
  lex_unterminated_group ["add"] [("note", some "")] "add" ["a.cpp", "b.h"]
    (initRecord ["add"] [("note", some "")]) (by decide) (by decide)

end Botan
